import Mathlib

/-!
Shallow embedding of the highlight selection & assembly pipeline of
ai-game-video-generator, covering:
- src/src/video_concatenator.py : merge_overlapping_highlights, process_segment,
  concatenate_highlights (assembly stage);
- src/highlighter.py : HighlightCompiler.plan_compilation (two-phase selection).

Python floats are modelled as rationals (the algorithms only perform exact
field arithmetic and comparisons on them); external subprocess calls (ffmpeg /
ffprobe) are modelled by explicit oracle records describing their observable
outcomes; Python dict keys that may be absent are modelled with Option.
-/

namespace VideoConcatenator

/-- A highlight record as consumed by video_concatenator.py.  The dictionary
keys used by the module are modelled as fields; a key that may be absent
(source_video / video_path) is an Option. -/
structure Highlight where
  source_video : Option String
  video_path : Option String
  timestamp_start_seconds : ℚ
  timestamp_end_seconds : ℚ
  clip_description : String
deriving DecidableEq, Repr

/-- Source lookup of merge_overlapping_highlights:
source = highlight.get('source_video', highlight.get('video_path', None)),
followed by the falsy check `if not source` (which also rejects the empty
string). -/
def sourceOf (h : Highlight) : Option String :=
  match h.source_video with
  | some s => if s = "" then none else some s
  | none =>
    match h.video_path with
    | some s => if s = "" then none else some s
    | none => none

/-- The merge condition of the inner while loop (lines 157-158):
merged end + 3 >= next start, or the two start times are within 3 seconds. -/
def canMerge (m n : Highlight) : Prop :=
  n.timestamp_start_seconds ≤ m.timestamp_end_seconds + 3 ∨
    |m.timestamp_start_seconds - n.timestamp_start_seconds| ≤ 3

instance (m n : Highlight) : Decidable (canMerge m n) := by
  unfold canMerge; infer_instance

/-- One merge step (lines 160-164): widen the interval to the union and join
the descriptions with " + ".  All other fields come from the accumulator
(`merged = current.copy()`). -/
def extend (m n : Highlight) : Highlight :=
  { m with
    timestamp_start_seconds :=
      min m.timestamp_start_seconds n.timestamp_start_seconds,
    timestamp_end_seconds :=
      max m.timestamp_end_seconds n.timestamp_end_seconds,
    clip_description := m.clip_description ++ " + " ++ n.clip_description }

/-- The inner while loop of merge_overlapping_highlights: keep absorbing the
next highlight into the accumulator while the merge condition holds; on the
first failure close the accumulated interval and restart from the next
element (the outer `i = j` step). -/
def sweepAux : Highlight → List Highlight → List Highlight
  | m, [] => [m]
  | m, n :: rest =>
    if canMerge m n then sweepAux (extend m n) rest else m :: sweepAux n rest

/-- The outer while loop over one sorted per-source group. -/
def sweep : List Highlight → List Highlight
  | [] => []
  | c :: rest => sweepAux c rest

/-- Comparison used to sort a group by timestamp_start_seconds (line 145);
insertion sort is stable, matching Python list.sort. -/
def startLE (a b : Highlight) : Prop :=
  a.timestamp_start_seconds ≤ b.timestamp_start_seconds

instance : DecidableRel startLE := fun a b =>
  inferInstanceAs (Decidable (a.timestamp_start_seconds ≤ b.timestamp_start_seconds))

instance : IsTotal Highlight startLE :=
  ⟨fun a b => le_total a.timestamp_start_seconds b.timestamp_start_seconds⟩

instance : IsTrans Highlight startLE :=
  ⟨fun _ _ _ h₁ h₂ => le_trans h₁ h₂⟩

def sortByStart (l : List Highlight) : List Highlight :=
  List.insertionSort startLE l

/-- First-occurrence deduplication: the key order of a Python dict built by
insertion. -/
def dedupFirst : List String → List String
  | [] => []
  | s :: rest => s :: (dedupFirst rest).filter (fun t => decide (t ≠ s))

/-- The per-source group of video_groups (lines 130-140): the highlights with
that source, in input order.  Highlights without a usable source are dropped
(they belong to no group). -/
def groupFor (hs : List Highlight) (s : String) : List Highlight :=
  hs.filter (fun h => decide (sourceOf h = some s))

/-- The keys of video_groups, in first-appearance order. -/
def mergeKeys (hs : List Highlight) : List String :=
  dedupFirst (hs.filterMap sourceOf)

/-- merge_overlapping_highlights (lines 104-172): group by source video,
sort each group by start time, sweep-merge each group, and concatenate the
groups in dict insertion order.  (The isinstance dict check of lines 117-128
is a dynamic-typing guard with no counterpart for a typed input list.) -/
def merge_overlapping_highlights (hs : List Highlight) : List Highlight :=
  ((mergeKeys hs).map (fun s => sweep (sortByStart (groupFor hs s)))).flatten


def hA : Highlight :=
  { source_video := some "a.mp4", video_path := none,
    timestamp_start_seconds := 10, timestamp_end_seconds := 20,
    clip_description := "x" }

def hB : Highlight :=
  { source_video := some "a.mp4", video_path := none,
    timestamp_start_seconds := 19, timestamp_end_seconds := 30,
    clip_description := "y" }

def hC : Highlight :=
  { source_video := some "a.mp4", video_path := none,
    timestamp_start_seconds := 100, timestamp_end_seconds := 110,
    clip_description := "z" }

/-- The merge of hA and hB. -/
def mAB : Highlight :=
  { source_video := some "a.mp4", video_path := none,
    timestamp_start_seconds := 10, timestamp_end_seconds := 30,
    clip_description := "x + y" }

/-! ### process_segment (lines 174-277)

The ffmpeg / ffprobe subprocess calls are modelled by an oracle record
describing their observable outcomes for the one segment file this call
writes. -/

/-- Outcomes of the external processes touched by one process_segment call:
the re-encode's exit code, whether the segment file exists and its size,
the duration ffprobe reports for it (none models empty/unparsable ffprobe
output, which raises and lands in the except branch), and the result of
generate_subtitles_for_video when it is invoked (none models an
exception). -/
structure SegmentWorld where
  returncode : Int
  fileExists : Bool
  fileSize : Nat
  probedDuration : Option ℚ
  subtitleResult : Option String
deriving DecidableEq

/-- Shape of an ffmpeg cut instruction: seek + duration (the -ss and -t
flags), or an
absolute start..end range.  process_segment only ever issues the first; the
second exists to state what a retry strategy would look like. -/
inductive CutStyle where
  | startDuration
  | startEnd
deriving DecidableEq, Repr

/-- The tuple returned by process_segment, extended with the audit trail of
ffmpeg cut invocations the call performed (its observable effect). -/
structure SegmentResult where
  segment_file : String
  success : Bool
  duration : ℚ
  subtitle_path : Option String
  cutCalls : List CutStyle
deriving DecidableEq

/-- process_segment: cut [start, start + (end + 2 - start)) by re-encoding
(one single ffmpeg invocation with -ss start -t duration; the code comments
'No retry logic here'), then probe the produced file and verify
returncode == 0, file exists, size > 0 and |actual - duration| < 1.0.
On verification failure or probe exception the segment is reported failed
with duration 0.  (The :03d zero padding of the index in the file name is
elided.) -/
def process_segment (w : SegmentWorld) (h : Highlight) (idx : Nat)
    (generate_subtitles : Bool) : SegmentResult :=
  let start_time := h.timestamp_start_seconds
  let end_time := h.timestamp_end_seconds + 2
  let duration := end_time - start_time
  let segment_file := "temp_segments/segment_" ++ toString idx ++ ".mp4"
  let cutCalls := [CutStyle.startDuration]
  match w.probedDuration with
  | none =>
    { segment_file := segment_file, success := false, duration := 0,
      subtitle_path := none, cutCalls := cutCalls }
  | some actual =>
    if w.returncode = 0 ∧ w.fileExists = true ∧ 0 < w.fileSize ∧
        |actual - duration| < 1 then
      { segment_file := segment_file, success := true, duration := actual,
        subtitle_path :=
          if generate_subtitles ∧ w.fileExists = true then w.subtitleResult
          else none,
        cutCalls := cutCalls }
    else
      { segment_file := segment_file, success := false, duration := 0,
        subtitle_path := none, cutCalls := cutCalls }

/-- A world whose first transcode succeeds but whose probed duration (30s)
drifts far from the expected cut duration. -/
def wDrift : SegmentWorld :=
  { returncode := 0, fileExists := true, fileSize := 1,
    probedDuration := some 30, subtitleResult := none }

/-- A world whose transcode succeeds with the exact expected duration
(hA cut duration = 20 - 10 + 2 = 12). -/
def wGood : SegmentWorld :=
  { returncode := 0, fileExists := true, fileSize := 1,
    probedDuration := some 12, subtitleResult := none }

/-- A world in which the transcode fails and the file is never written. -/
def wFail : SegmentWorld :=
  { returncode := 1, fileExists := false, fileSize := 0,
    probedDuration := none, subtitleResult := none }

/-! ### concatenate_highlights, assembly stage (lines 279-509)

Modelled for the default generate_subtitles = False path (the subtitle
burn-in branch of lines 400-465 is skipped in that case).  Extraction
results are collected in submission order; Python collects them in
as_completed order, which only permutes the verified list. -/

/-- The JSON shapes accepted from highlights.json (lines 303-319). -/
inductive HighlightsJson where
  | list (hs : List Highlight)
  | dictWithKey (hs : List Highlight)
  | dictValues (hs : List Highlight)
  | unexpected
deriving DecidableEq

def parseHighlightsJson : HighlightsJson → Option (List Highlight)
  | .list hs => some hs
  | .dictWithKey hs => some hs
  | .dictValues hs => some hs
  | .unexpected => none

/-- External world of one concatenate_highlights run: the per-index segment
oracles, the concat subprocess outcome and output file state, the configured
clip_order, and parse_video_timestamp as a numeric key per source path. -/
structure ConcatWorld where
  segWorlds : Nat → SegmentWorld
  concatReturncode : Int
  outExists : Bool
  outSize : Nat
  clipOrder : String
  timeKey : String → ℚ

/-- Observable outcome of one concatenate_highlights run: the merged
highlights, the verified segment files, their summed durations, the concat
manifest written to concat_list.txt, whether the concat subprocess was
invoked, and the final success check (returncode 0, output exists,
size > 0). -/
structure ConcatReport where
  mergedHighlights : List Highlight
  verified : List String
  expectedTotal : ℚ
  manifest : List String
  concatInvoked : Bool
  success : Bool
deriving DecidableEq

/-- Lines 326-329: fill source_video from video_path when absent. -/
def fixSource (h : Highlight) : Highlight :=
  if h.source_video = none ∧ h.video_path.isSome then
    { h with source_video := h.video_path }
  else h

/-- Ascending order by clip timestamp (oldest_first). -/
def tsOrderOld (timeKey : String → ℚ) (a b : Highlight) : Prop :=
  timeKey (a.source_video.getD "") ≤ timeKey (b.source_video.getD "")

instance (timeKey : String → ℚ) : DecidableRel (tsOrderOld timeKey) := fun a b =>
  inferInstanceAs
    (Decidable (timeKey (a.source_video.getD "") ≤ timeKey (b.source_video.getD "")))

/-- Descending order by clip timestamp (newest_first, reverse=True). -/
def tsOrderNew (timeKey : String → ℚ) (a b : Highlight) : Prop :=
  timeKey (b.source_video.getD "") ≤ timeKey (a.source_video.getD "")

instance (timeKey : String → ℚ) : DecidableRel (tsOrderNew timeKey) := fun a b =>
  inferInstanceAs
    (Decidable (timeKey (b.source_video.getD "") ≤ timeKey (a.source_video.getD "")))

/-- concatenate_highlights: parse the JSON shape (unexpected → early
return), early return on an empty list, normalise video_path into
source_video, merge, early return when nothing valid remains, order clips
per config, extract every segment, collect the verified ones, write the
concat manifest (exactly the verified files), and always invoke the concat
subprocess on that manifest, with success judged afterwards from its
return code and the output file.  The run never raises on an empty verified
list. -/
def concatenate_highlights (w : ConcatWorld) (data : HighlightsJson) :
    Option ConcatReport :=
  match parseHighlightsJson data with
  | none => none
  | some hs =>
    if hs = [] then none
    else
      let hs1 := hs.map fixSource
      let merged := merge_overlapping_highlights hs1
      if merged = [] then none
      else
        let ordered :=
          if w.clipOrder = "oldest_first" then
            List.insertionSort (tsOrderOld w.timeKey) merged
          else if w.clipOrder = "newest_first" then
            List.insertionSort (tsOrderNew w.timeKey) merged
          else
            List.insertionSort (tsOrderOld w.timeKey) merged
        let results :=
          ordered.enum.map (fun p => process_segment (w.segWorlds p.1) p.2 p.1 false)
        let okResults := results.filter (fun r => r.success)
        let verified := okResults.map (fun r => r.segment_file)
        some { mergedHighlights := merged,
               verified := verified,
               expectedTotal := (okResults.map (fun r => r.duration)).sum,
               manifest := verified,
               concatInvoked := true,
               success := decide (w.concatReturncode = 0) && w.outExists &&
                 decide (0 < w.outSize) }

/-- A world in which every extraction fails and the concat command also
fails. -/
def wAllFail : ConcatWorld :=
  { segWorlds := fun _ => wFail, concatReturncode := 1, outExists := false,
    outSize := 0, clipOrder := "oldest_first", timeKey := fun _ => 0 }

end VideoConcatenator

namespace Highlighter

/-! ### HighlightCompiler.plan_compilation (highlighter.py, lines 123-219)

The database and filesystem reads feeding the selection are modelled as an
explicit clip list and a numeric sort key; the phase-2 shuffle
(sorted by random.random) is modelled as a caller-supplied permutation
function. -/

/-- models.SelectedHighlight as built in plan_compilation lines 156-166. -/
structure SelectedHighlight where
  source_path : String
  original_clip_path : String
  clip_id : Nat
  start_time : ℚ
  end_time : ℚ
  duration : ℚ
  description : String
deriving DecidableEq, Repr

/-- models.CompilationPlan as built in plan_compilation lines 210-214. -/
structure CompilationPlan where
  highlights : List SelectedHighlight
  total_duration : ℚ
  target_duration : ℚ
deriving DecidableEq, Repr

/-- One entry of a stored analysis' highlights array. -/
structure HighlightSeg where
  start_time : ℚ
  end_time : ℚ
  clip_description : String
deriving DecidableEq, Repr

/-- A database clip row: path, id, and the stored analysis (none when the
clip has not been analyzed). -/
structure Clip where
  path : String
  id : Nat
  analysis : Option (List HighlightSeg)
deriving DecidableEq, Repr

/-- Sort key of line 169: ascending by duration, stable. -/
def durLE (a b : SelectedHighlight) : Prop := a.duration ≤ b.duration

instance : DecidableRel durLE := fun a b =>
  inferInstanceAs (Decidable (a.duration ≤ b.duration))

/-- Sort key of line 207: ascending by the (source_path, start_time) pair. -/
def pathStartLE (a b : SelectedHighlight) : Prop :=
  a.source_path < b.source_path ∨
    (a.source_path = b.source_path ∧ a.start_time ≤ b.start_time)

instance : DecidableRel pathStartLE := fun a b =>
  inferInstanceAs (Decidable (a.source_path < b.source_path ∨
    (a.source_path = b.source_path ∧ a.start_time ≤ b.start_time)))

/-- Sort of line 145: descending by the recorded-at key (reverse=True,
stable). -/
def clipNewestFirst (timeKey : Clip → ℚ) (a b : Clip) : Prop :=
  timeKey b ≤ timeKey a

instance (timeKey : Clip → ℚ) : DecidableRel (clipNewestFirst timeKey) :=
  fun a b => inferInstanceAs (Decidable (timeKey b ≤ timeKey a))

/-- Phase-1 while loop (lines 176-190).  State: list still to scan,
accumulated duration, selected so far, skipped-so-far (the elements left in
all_highlights before position i).  A candidate that would push the total
over target * 1.1 is skipped; an accepted candidate is appended and removed
(pop(i)); the loop stops once accumulated ≥ target or the list is
exhausted.  Returns (selected, accumulated, remaining), where remaining is
the skipped elements followed by the never-visited suffix. -/
def phase1 (target : ℚ) :
    List SelectedHighlight → ℚ → List SelectedHighlight → List SelectedHighlight →
      List SelectedHighlight × ℚ × List SelectedHighlight
  | [], cur, sel, skipped => (sel, cur, skipped)
  | h :: rest, cur, sel, skipped =>
    if target ≤ cur then (sel, cur, skipped ++ h :: rest)
    else if target * (11/10) < cur + h.duration then
      phase1 target rest cur sel (skipped ++ [h])
    else
      phase1 target rest (cur + h.duration) (sel ++ [h]) skipped

/-- Phase-2 under-fill loop (lines 199-204): append shuffled remaining
candidates, regardless of the 110% ceiling, until accumulated ≥ target or
the remaining pool is exhausted. -/
def phase2 (target : ℚ) :
    List SelectedHighlight → ℚ → List SelectedHighlight →
      List SelectedHighlight × ℚ
  | [], cur, sel => (sel, cur)
  | h :: rest, cur, sel =>
    if target ≤ cur then (sel, cur)
    else phase2 target rest (cur + h.duration) (sel ++ [h])

/-- The selection core of plan_compilation (lines 168-214), given the
extracted highlight pool: sort ascending by duration, run phase 1 from an
accumulated duration of 0, run phase 2 on the shuffled remainder only when
the phase-1 total is below target * 0.9, re-sort the selection by
(source_path, start_time) and build the plan. -/
def select (shuffle : List SelectedHighlight → List SelectedHighlight)
    (all_highlights : List SelectedHighlight) (target : ℚ) : CompilationPlan :=
  let sorted := List.insertionSort durLE all_highlights
  let r1 := phase1 target sorted 0 [] []
  let r2 :=
    if r1.2.1 < target * (9/10) then phase2 target (shuffle r1.2.2) r1.2.1 r1.1
    else (r1.1, r1.2.1)
  { highlights := List.insertionSort pathStartLE r2.1,
    total_duration := r2.2,
    target_duration := target }

/-- Lines 154-166: one SelectedHighlight from a stored highlight entry;
duration is computed as end_time - start_time. -/
def mkSelected (c : Clip) (h : HighlightSeg) : SelectedHighlight :=
  { source_path := c.path, original_clip_path := c.path, clip_id := c.id,
    start_time := h.start_time, end_time := h.end_time,
    duration := h.end_time - h.start_time,
    description := h.clip_description }

/-- plan_compilation (lines 123-219): keep only clips with a stored
analysis, raise ValueError('No analyzed clips available') when none remain,
sort the rest newest first, extract every stored highlight, and run the
selection core. -/
def plan_compilation (shuffle : List SelectedHighlight → List SelectedHighlight)
    (timeKey : Clip → ℚ) (clips : List Clip) (target : ℚ) :
    Except String CompilationPlan :=
  let cwa := clips.filter (fun c => c.analysis.isSome)
  if cwa = [] then .error "No analyzed clips available"
  else
    let sortedClips := List.insertionSort (clipNewestFirst timeKey) cwa
    let all := (sortedClips.map (fun c => (c.analysis.getD []).map (mkSelected c))).flatten
    .ok (select shuffle all target)

/-- An analyzed clip whose analysis contains zero highlights. -/
def clipNoHL : Clip := { path := "a.mp4", id := 1, analysis := some [] }

/-- A ten-second highlight on a.mp4. -/
def sh1 : SelectedHighlight :=
  { source_path := "a.mp4", original_clip_path := "a.mp4", clip_id := 1,
    start_time := 0, end_time := 10, duration := 10, description := "d" }
end Highlighter

namespace VideoConcatenator

/-! ### Basic facts about extend and sweepAux -/

theorem sourceOf_extend (m n : Highlight) : sourceOf (extend m n) = sourceOf m := rfl

theorem extend_start_le_left (m n : Highlight) :
    (extend m n).timestamp_start_seconds ≤ m.timestamp_start_seconds :=
  min_le_left _ _

theorem extend_start_le_right (m n : Highlight) :
    (extend m n).timestamp_start_seconds ≤ n.timestamp_start_seconds :=
  min_le_right _ _

theorem left_end_le_extend (m n : Highlight) :
    m.timestamp_end_seconds ≤ (extend m n).timestamp_end_seconds :=
  le_max_left _ _

theorem right_end_le_extend (m n : Highlight) :
    n.timestamp_end_seconds ≤ (extend m n).timestamp_end_seconds :=
  le_max_right _ _

theorem extend_start_eq {m n : Highlight}
    (h : m.timestamp_start_seconds ≤ n.timestamp_start_seconds) :
    (extend m n).timestamp_start_seconds = m.timestamp_start_seconds :=
  min_eq_left h

theorem sweepAux_ne_nil (m : Highlight) (l : List Highlight) : sweepAux m l ≠ [] := by
  induction l generalizing m with
  | nil => simp [sweepAux]
  | cons n rest ih =>
    by_cases h : canMerge m n
    · simpa [sweepAux, h] using ih (extend m n)
    · simp [sweepAux, h]

/-- Decomposition of one pass of the inner loop: the first emitted record
consumes an initial chunk `t` of the remaining list and equals the fold of
`extend` over that chunk; the rest of the output is the outer loop restarted
on the suffix, and the chunk was closed because the merge condition failed
against the suffix head. -/
theorem sweepAux_chunks (l : List Highlight) (m : Highlight) :
    ∃ t r, l = t ++ r ∧ sweepAux m l = List.foldl extend m t :: sweep r ∧
      ∀ n r₂, r = n :: r₂ → ¬ canMerge (List.foldl extend m t) n := by
  induction l generalizing m with
  | nil => exact ⟨[], [], rfl, rfl, fun n r₂ h => by cases h⟩
  | cons n rest ih =>
    by_cases h : canMerge m n
    · obtain ⟨t, r, hsplit, heq, hsep⟩ := ih (extend m n)
      refine ⟨n :: t, r, by simp [hsplit], ?_, ?_⟩
      · simpa [sweepAux, h] using heq
      · intro n₂ r₂ hr
        simpa using hsep n₂ r₂ hr
    · refine ⟨[], n :: rest, rfl, by simp [sweepAux, h, sweep], ?_⟩
      intro n₂ r₂ hr
      cases hr
      simpa using h

/-- Every record emitted by the inner loop is the fold of `extend` over some
records, each of which is the accumulator itself or drawn from the remaining
list. -/
theorem sweepAux_provenance (l : List Highlight) (m : Highlight) :
    ∀ h ∈ sweepAux m l,
      (∃ t r, l = t ++ r ∧ h = List.foldl extend m t) ∨
      (∃ c t, h = List.foldl extend c t ∧ ∀ x ∈ c :: t, x ∈ l) := by
  induction l generalizing m with
  | nil =>
    intro h hh
    simp only [sweepAux, List.mem_singleton] at hh
    exact Or.inl ⟨[], [], rfl, hh⟩
  | cons n rest ih =>
    intro h hh
    by_cases hc : canMerge m n
    · rw [sweepAux, if_pos hc] at hh
      rcases ih (extend m n) h hh with ⟨t, r, hsplit, heq⟩ | ⟨c, t, heq, hmem⟩
      · exact Or.inl ⟨n :: t, r, by simp [hsplit], by simpa using heq⟩
      · exact Or.inr ⟨c, t, heq, fun x hx => List.mem_cons_of_mem _ (hmem x hx)⟩
    · rw [sweepAux, if_neg hc] at hh
      rcases List.mem_cons.mp hh with h1 | h2
      · exact Or.inl ⟨[], n :: rest, rfl, h1⟩
      · rcases ih n h h2 with ⟨t, r, hsplit, heq⟩ | ⟨c, t, heq, hmem⟩
        · refine Or.inr ⟨n, t, heq, fun x hx => ?_⟩
          rcases List.mem_cons.mp hx with hx | hx
          · simp [hx]
          · exact List.mem_cons_of_mem _ (hsplit ▸ List.mem_append_left _ hx)
        · exact Or.inr ⟨c, t, heq, fun x hx => List.mem_cons_of_mem _ (hmem x hx)⟩

/-- Every element of a sweep of a list is the fold of `extend` over a
nonempty selection of elements of that list. -/
theorem sweep_provenance (l : List Highlight) :
    ∀ h ∈ sweep l, ∃ c t, h = List.foldl extend c t ∧ ∀ x ∈ c :: t, x ∈ l := by
  match l with
  | [] => intro h hh; simp [sweep] at hh
  | c :: l₂ =>
    intro h hh
    rcases sweepAux_provenance l₂ c h hh with ⟨t, r, hsplit, heq⟩ | ⟨c₂, t₂, heq, hmem⟩
    · refine ⟨c, t, heq, fun x hx => ?_⟩
      rcases List.mem_cons.mp hx with hx | hx
      · simp [hx]
      · exact List.mem_cons_of_mem _ (hsplit ▸ List.mem_append_left _ hx)
    · exact ⟨c₂, t₂, heq, fun x hx => List.mem_cons_of_mem _ (hmem x hx)⟩

/-- Interval coverage: every record fed to the inner loop ends up inside the
interval of some emitted record. -/
theorem sweepAux_covers (l : List Highlight) (m : Highlight) :
    ∀ x, (x = m ∨ x ∈ l) →
      ∃ out ∈ sweepAux m l,
        out.timestamp_start_seconds ≤ x.timestamp_start_seconds ∧
        x.timestamp_end_seconds ≤ out.timestamp_end_seconds := by
  induction l generalizing m with
  | nil =>
    intro x hx
    rcases hx with hxm | hx
    · exact ⟨m, by simp [sweepAux], by rw [hxm], by rw [hxm]⟩
    · cases hx
  | cons n rest ih =>
    intro x hx
    by_cases hc : canMerge m n
    · rw [sweepAux, if_pos hc]
      rcases hx with hxm | hx
      · obtain ⟨out, hout, h1, h2⟩ := ih (extend m n) (extend m n) (Or.inl rfl)
        refine ⟨out, hout, ?_, ?_⟩
        · rw [hxm]; exact le_trans h1 (extend_start_le_left _ _)
        · rw [hxm]; exact le_trans (left_end_le_extend _ _) h2
      · rcases List.mem_cons.mp hx with hxn | hx2
        · obtain ⟨out, hout, h1, h2⟩ := ih (extend m n) (extend m n) (Or.inl rfl)
          refine ⟨out, hout, ?_, ?_⟩
          · rw [hxn]; exact le_trans h1 (extend_start_le_right _ _)
          · rw [hxn]; exact le_trans (right_end_le_extend _ _) h2
        · exact ih (extend m n) x (Or.inr hx2)
    · rw [sweepAux, if_neg hc]
      rcases hx with hxm | hx
      · exact ⟨m, List.mem_cons_self _ _, by rw [hxm], by rw [hxm]⟩
      · rcases List.mem_cons.mp hx with hxn | hx2
        · obtain ⟨out, hout, h1, h2⟩ := ih n n (Or.inl rfl)
          refine ⟨out, List.mem_cons_of_mem _ hout, ?_, ?_⟩
          · rw [hxn]; exact h1
          · rw [hxn]; exact h2
        · obtain ⟨out, hout, h1, h2⟩ := ih n x (Or.inr hx2)
          exact ⟨out, List.mem_cons_of_mem _ hout, h1, h2⟩

/-- The inner loop preserves the source of the accumulator: all emitted
records have the source of the elements of the group. -/
theorem sweepAux_sourceOf (l : List Highlight) (m : Highlight)
    (hl : ∀ x ∈ l, sourceOf x = sourceOf m) :
    ∀ out ∈ sweepAux m l, sourceOf out = sourceOf m := by
  induction l generalizing m with
  | nil =>
    intro out hout
    simp only [sweepAux, List.mem_singleton] at hout
    simp [hout]
  | cons n rest ih =>
    intro out hout
    by_cases hc : canMerge m n
    · rw [sweepAux, if_pos hc] at hout
      have := ih (extend m n)
        (fun x hx => by rw [hl x (List.mem_cons_of_mem _ hx), sourceOf_extend]) out hout
      rwa [sourceOf_extend] at this
    · rw [sweepAux, if_neg hc] at hout
      rcases List.mem_cons.mp hout with rfl | hout2
      · rfl
      · have hn : sourceOf n = sourceOf m := hl n (List.mem_cons_self _ _)
        have := ih n (fun x hx => by rw [hl x (List.mem_cons_of_mem _ hx), hn]) out hout2
        rw [this, hn]

/-! ### Sortedness and separation of the sweep output -/

/-- If every remaining start time is at least the accumulator's, the first
emitted record keeps the accumulator's start time (within a start-sorted
group the accumulated min never moves). -/
theorem sweepAux_head_start (l : List Highlight) (m : Highlight)
    (hl : ∀ x ∈ l, m.timestamp_start_seconds ≤ x.timestamp_start_seconds) :
    ∃ b t, sweepAux m l = b :: t ∧
      b.timestamp_start_seconds = m.timestamp_start_seconds := by
  induction l generalizing m with
  | nil => exact ⟨m, [], rfl, rfl⟩
  | cons n rest ih =>
    by_cases hc : canMerge m n
    · rw [sweepAux, if_pos hc]
      have hstart : (extend m n).timestamp_start_seconds = m.timestamp_start_seconds :=
        extend_start_eq (hl n (List.mem_cons_self _ _))
      obtain ⟨b, t, heq, hb⟩ := ih (extend m n)
        (fun x hx => hstart ▸ hl x (List.mem_cons_of_mem _ hx))
      exact ⟨b, t, heq, by rw [hb, hstart]⟩
    · exact ⟨m, sweepAux n rest, by rw [sweepAux, if_neg hc], rfl⟩

/-- Lower bound on the start times of all emitted records. -/
theorem sweepAux_start_lb (l : List Highlight) (m : Highlight) (c : ℚ)
    (hm : c ≤ m.timestamp_start_seconds)
    (hl : ∀ x ∈ l, c ≤ x.timestamp_start_seconds) :
    ∀ out ∈ sweepAux m l, c ≤ out.timestamp_start_seconds := by
  induction l generalizing m with
  | nil =>
    intro out hout
    simp only [sweepAux, List.mem_singleton] at hout
    rw [hout]; exact hm
  | cons n rest ih =>
    intro out hout
    by_cases hc : canMerge m n
    · rw [sweepAux, if_pos hc] at hout
      refine ih (extend m n) ?_ (fun x hx => hl x (List.mem_cons_of_mem _ hx)) out hout
      exact le_min hm (hl n (List.mem_cons_self _ _))
    · rw [sweepAux, if_neg hc] at hout
      rcases List.mem_cons.mp hout with hout1 | hout2
      · rw [hout1]; exact hm
      · exact ih n (hl n (List.mem_cons_self _ _))
          (fun x hx => hl x (List.mem_cons_of_mem _ hx)) out hout2

/-- On a start-sorted group the sweep emits a start-sorted list. -/
theorem sweepAux_sorted (l : List Highlight) (m : Highlight)
    (hs : List.Sorted startLE l)
    (hl : ∀ x ∈ l, m.timestamp_start_seconds ≤ x.timestamp_start_seconds) :
    List.Sorted startLE (sweepAux m l) := by
  induction l generalizing m with
  | nil => simp [sweepAux, List.sorted_singleton]
  | cons n rest ih =>
    by_cases hc : canMerge m n
    · rw [sweepAux, if_pos hc]
      have hstart : (extend m n).timestamp_start_seconds = m.timestamp_start_seconds :=
        extend_start_eq (hl n (List.mem_cons_self _ _))
      exact ih (extend m n) hs.tail
        (fun x hx => hstart ▸ hl x (List.mem_cons_of_mem _ hx))
    · rw [sweepAux, if_neg hc]
      refine List.sorted_cons.mpr ⟨?_, ?_⟩
      · intro b hb
        exact sweepAux_start_lb rest n m.timestamp_start_seconds
          (hl n (List.mem_cons_self _ _))
          (fun x hx => hl x (List.mem_cons_of_mem _ hx)) b hb
      · exact ih n hs.tail (List.rel_of_sorted_cons hs)

/-- On a start-sorted group, consecutive emitted records never satisfy the
merge condition: the output is fully separated, so a second sweep has
nothing left to merge. -/
theorem sweepAux_sep (l : List Highlight) (m : Highlight)
    (hs : List.Sorted startLE l)
    (hl : ∀ x ∈ l, m.timestamp_start_seconds ≤ x.timestamp_start_seconds) :
    List.Chain' (fun a b => ¬ canMerge a b) (sweepAux m l) := by
  induction l generalizing m with
  | nil => simp [sweepAux]
  | cons n rest ih =>
    by_cases hc : canMerge m n
    · rw [sweepAux, if_pos hc]
      have hstart : (extend m n).timestamp_start_seconds = m.timestamp_start_seconds :=
        extend_start_eq (hl n (List.mem_cons_self _ _))
      exact ih (extend m n) hs.tail
        (fun x hx => hstart ▸ hl x (List.mem_cons_of_mem _ hx))
    · rw [sweepAux, if_neg hc]
      obtain ⟨b, t, heq, hb⟩ := sweepAux_head_start rest n (List.rel_of_sorted_cons hs)
      rw [heq]
      refine List.chain'_cons.mpr ⟨?_, ?_⟩
      · intro hmb
        apply hc
        rcases hmb with h1 | h2
        · exact Or.inl (hb ▸ h1)
        · exact Or.inr (hb ▸ h2)
      · rw [← heq]
        exact ih n hs.tail (List.rel_of_sorted_cons hs)

/-- The inner loop leaves a fully separated list unchanged. -/
theorem sweepAux_of_sep (l : List Highlight) (m : Highlight)
    (hsep : List.Chain' (fun a b => ¬ canMerge a b) (m :: l)) :
    sweepAux m l = m :: l := by
  induction l generalizing m with
  | nil => rfl
  | cons n rest ih =>
    have hmn : ¬ canMerge m n := (List.chain'_cons.mp hsep).1
    rw [sweepAux, if_neg hmn, ih n (List.chain'_cons.mp hsep).2]

/-- The outer loop leaves a fully separated list unchanged. -/
theorem sweep_of_sep (l : List Highlight)
    (hsep : List.Chain' (fun a b => ¬ canMerge a b) l) :
    sweep l = l := by
  match l with
  | [] => rfl
  | c :: l₂ => exact sweepAux_of_sep l₂ c hsep

/-! ### Grouping bookkeeping -/

theorem mem_dedupFirst {l : List String} {a : String} : a ∈ dedupFirst l ↔ a ∈ l := by
  induction l with
  | nil => simp [dedupFirst]
  | cons s rest ih =>
    simp only [dedupFirst, List.mem_cons, List.mem_filter, decide_eq_true_iff, ih]
    constructor
    · rintro (h | ⟨h, -⟩)
      · exact Or.inl h
      · exact Or.inr h
    · rintro (h | h)
      · exact Or.inl h
      · by_cases hs : a = s
        · exact Or.inl hs
        · exact Or.inr ⟨h, hs⟩

theorem nodup_dedupFirst (l : List String) : (dedupFirst l).Nodup := by
  induction l with
  | nil => simp [dedupFirst]
  | cons s rest ih =>
    refine List.nodup_cons.mpr ⟨?_, ih.filter _⟩
    intro hmem
    have := (List.mem_filter.mp hmem).2
    simp at this

theorem filterMap_const_source {l : List Highlight} {s : String}
    (h : ∀ y ∈ l, sourceOf y = some s) :
    l.filterMap sourceOf = List.replicate l.length s := by
  induction l with
  | nil => rfl
  | cons a rest ih =>
    rw [List.filterMap_cons, h a (List.mem_cons_self _ _), List.length_cons,
      List.replicate_succ, ih (fun y hy => h y (List.mem_cons_of_mem _ hy))]

theorem dedupFirst_replicate_append (s : String) :
    ∀ n, n ≠ 0 → ∀ t, dedupFirst (List.replicate n s ++ t) =
      s :: (dedupFirst t).filter (fun x => decide (x ≠ s)) := by
  intro n
  induction n with
  | zero => intro h; exact absurd rfl h
  | succ n ih =>
    intro _ t
    match n with
    | 0 => simp [dedupFirst]
    | Nat.succ k =>
      rw [List.replicate_succ, List.cons_append, dedupFirst, ih (Nat.succ_ne_zero k) t]
      simp [List.filter_filter]

/-- Structure of a concatenation of per-key blocks: when the keys are
distinct, every block is nonempty, and every element of a block carries its
key as source, re-grouping the concatenation recovers exactly the keys and
the blocks. -/
theorem flatten_blocks (keys : List String) (B : String → List Highlight)
    (hsrc : ∀ s ∈ keys, ∀ y ∈ B s, sourceOf y = some s)
    (hne : ∀ s ∈ keys, B s ≠ [])
    (hnd : keys.Nodup) :
    mergeKeys ((keys.map B).flatten) = keys ∧
      ∀ s ∈ keys, groupFor ((keys.map B).flatten) s = B s := by
  induction keys with
  | nil => exact ⟨rfl, fun s hs => absurd hs (List.not_mem_nil s)⟩
  | cons s ks ih =>
    have hs0 : ∀ y ∈ B s, sourceOf y = some s := hsrc s (List.mem_cons_self _ _)
    have hks : ∀ u ∈ ks, ∀ y ∈ B u, sourceOf y = some u :=
      fun u hu => hsrc u (List.mem_cons_of_mem _ hu)
    have hnes : ∀ u ∈ ks, B u ≠ [] := fun u hu => hne u (List.mem_cons_of_mem _ hu)
    obtain ⟨ihk, ihg⟩ := ih hks hnes hnd.of_cons
    have hsnot : s ∉ ks := (List.nodup_cons.mp hnd).1
    have hrest_src : ∀ y ∈ ((ks.map B).flatten), ∃ u ∈ ks, sourceOf y = some u := by
      intro y hy
      obtain ⟨l₂, hl₂, hyl⟩ := List.mem_flatten.mp hy
      obtain ⟨u, hu, rfl⟩ := List.mem_map.mp hl₂
      exact ⟨u, hu, hks u hu y hyl⟩
    constructor
    · rw [List.map_cons, List.flatten_cons]
      unfold mergeKeys
      rw [List.filterMap_append, filterMap_const_source hs0,
        dedupFirst_replicate_append s (B s).length
          (fun h => hne s (List.mem_cons_self _ _) (List.length_eq_zero.mp h)) _]
      have : dedupFirst (List.filterMap sourceOf (ks.map B).flatten) = ks := ihk
      rw [this, List.filter_eq_self.mpr]
      intro u hu
      simp only [decide_eq_true_iff]
      intro hus
      exact hsnot (hus ▸ hu)
    · intro u hu
      rw [List.map_cons, List.flatten_cons]
      unfold groupFor
      rw [List.filter_append]
      rcases List.mem_cons.mp hu with hu1 | hu2
      · rw [hu1]
        have h1 : List.filter (fun h => decide (sourceOf h = some s)) (B s) = B s :=
          List.filter_eq_self.mpr (fun y hy => by simp [hs0 y hy])
        have h2 : List.filter (fun h => decide (sourceOf h = some s))
            ((ks.map B).flatten) = [] := by
          rw [List.filter_eq_nil_iff]
          intro y hy
          obtain ⟨v, hv, hsv⟩ := hrest_src y hy
          simp only [decide_eq_true_iff, hsv]
          intro hvs
          exact hsnot (((Option.some.injEq _ _).mp hvs) ▸ hv)
        rw [h1, h2, List.append_nil]
      · have h1 : List.filter (fun h => decide (sourceOf h = some u)) (B s) = [] := by
          rw [List.filter_eq_nil_iff]
          intro y hy
          simp only [decide_eq_true_iff, hs0 y hy]
          intro hsu
          exact hsnot ((Option.some.injEq _ _).mp hsu ▸ hu2)
        rw [h1, List.nil_append]
        exact ihg u hu2

/-! ### Properties of one per-source block of the merge output -/

theorem mem_sorted_group {X : List Highlight} {s : String} {x : Highlight}
    (hx : x ∈ sortByStart (groupFor X s)) : x ∈ X ∧ sourceOf x = some s := by
  have hx2 : x ∈ groupFor X s := by
    have := (List.perm_insertionSort startLE (groupFor X s)).mem_iff.mp hx
    exact this
  have := List.mem_filter.mp hx2
  exact ⟨this.1, of_decide_eq_true this.2⟩

theorem block_sourceOf (X : List Highlight) (s : String) :
    ∀ y ∈ sweep (sortByStart (groupFor X s)), sourceOf y = some s := by
  cases hg : sortByStart (groupFor X s) with
  | nil => intro y hy; simp [sweep] at hy
  | cons m l =>
    intro y hy
    have hall : ∀ x ∈ sortByStart (groupFor X s), sourceOf x = some s :=
      fun x hx => (mem_sorted_group hx).2
    have hm : sourceOf m = some s := hall m (by rw [hg]; exact List.mem_cons_self _ _)
    have hout := sweepAux_sourceOf l m
      (fun x hx => by
        rw [hall x (by rw [hg]; exact List.mem_cons_of_mem _ hx), hm]) y hy
    rw [hout, hm]

theorem block_sorted (X : List Highlight) (s : String) :
    List.Sorted startLE (sweep (sortByStart (groupFor X s))) := by
  have hsg : List.Sorted startLE (sortByStart (groupFor X s)) :=
    List.sorted_insertionSort startLE (groupFor X s)
  cases hg : sortByStart (groupFor X s) with
  | nil => simp [sweep]
  | cons m l =>
    rw [hg] at hsg
    exact sweepAux_sorted l m hsg.tail (List.rel_of_sorted_cons hsg)

theorem block_sep (X : List Highlight) (s : String) :
    List.Chain' (fun a b => ¬ canMerge a b) (sweep (sortByStart (groupFor X s))) := by
  have hsg : List.Sorted startLE (sortByStart (groupFor X s)) :=
    List.sorted_insertionSort startLE (groupFor X s)
  cases hg : sortByStart (groupFor X s) with
  | nil => simp [sweep]
  | cons m l =>
    rw [hg] at hsg
    exact sweepAux_sep l m hsg.tail (List.rel_of_sorted_cons hsg)

theorem block_ne_nil {X : List Highlight} {s : String} (hs : s ∈ mergeKeys X) :
    sweep (sortByStart (groupFor X s)) ≠ [] := by
  have hs2 : s ∈ X.filterMap sourceOf := mem_dedupFirst.mp hs
  obtain ⟨h, hh, hsh⟩ := List.mem_filterMap.mp hs2
  have hgrp : h ∈ groupFor X s := List.mem_filter.mpr ⟨hh, by simp [hsh]⟩
  have hsort : h ∈ sortByStart (groupFor X s) :=
    (List.perm_insertionSort startLE (groupFor X s)).mem_iff.mpr hgrp
  cases hg : sortByStart (groupFor X s) with
  | nil => rw [hg] at hsort; cases hsort
  | cons m l =>
    exact sweepAux_ne_nil m l

/-- C6 claim, proved below as merge_idempotent: merging an already-merged
list changes nothing. -/
theorem merge_blocks_eq (X : List Highlight) :
    mergeKeys (merge_overlapping_highlights X) = mergeKeys X ∧
      ∀ s ∈ mergeKeys X,
        groupFor (merge_overlapping_highlights X) s =
          sweep (sortByStart (groupFor X s)) := by
  exact flatten_blocks (mergeKeys X) (fun s => sweep (sortByStart (groupFor X s)))
    (fun s _ => block_sourceOf X s) (fun s hs => block_ne_nil hs)
    (nodup_dedupFirst _)

/-- C6: the interval-merging operation is idempotent; applying
merge_overlapping_highlights to its own output returns the output
unchanged. -/
theorem merge_idempotent (X : List Highlight) :
    merge_overlapping_highlights (merge_overlapping_highlights X) =
      merge_overlapping_highlights X := by
  obtain ⟨hk, hg⟩ := merge_blocks_eq X
  have hmap : ∀ s ∈ mergeKeys X,
      sweep (sortByStart (groupFor (merge_overlapping_highlights X) s)) =
        sweep (sortByStart (groupFor X s)) := by
    intro s hs
    rw [hg s hs]
    have h1 : sortByStart (sweep (sortByStart (groupFor X s))) =
        sweep (sortByStart (groupFor X s)) := (block_sorted X s).insertionSort_eq
    rw [h1]
    exact sweep_of_sep _ (block_sep X s)
  calc merge_overlapping_highlights (merge_overlapping_highlights X)
      = ((mergeKeys (merge_overlapping_highlights X)).map
          (fun s => sweep (sortByStart
            (groupFor (merge_overlapping_highlights X) s)))).flatten := rfl
    _ = ((mergeKeys X).map (fun s => sweep (sortByStart (groupFor X s)))).flatten := by
        rw [hk]; exact congrArg List.flatten (List.map_congr_left hmap)
    _ = merge_overlapping_highlights X := rfl

/-- C7: every merged highlight is built, by folding `extend`, exclusively
from input candidates that all carry one and the same source; candidates
with different sources are never combined. -/
theorem merge_no_cross_source (X : List Highlight) :
    ∀ h ∈ merge_overlapping_highlights X, ∃ s c t,
      sourceOf h = some s ∧ h = List.foldl extend c t ∧
      ∀ x ∈ c :: t, x ∈ X ∧ sourceOf x = some s := by
  intro h hh
  obtain ⟨blk, hblk, hhblk⟩ := List.mem_flatten.mp hh
  obtain ⟨s, hs, rfl⟩ := List.mem_map.mp hblk
  obtain ⟨c, t, heq, hmem⟩ := sweep_provenance _ h hhblk
  exact ⟨s, c, t, block_sourceOf X s h hhblk, heq,
    fun x hx => mem_sorted_group (hmem x hx)⟩

/-- C9: merging never changes the input records; every output is either an
unmodified copy of an input candidate (one that merged with nothing) or a
fresh record folded with `extend` (widened bounds, concatenated description)
over at least two input candidates. -/
theorem merge_outputs_are_copies (X : List Highlight) :
    ∀ h ∈ merge_overlapping_highlights X,
      h ∈ X ∨ ∃ c t, t ≠ [] ∧ (∀ x ∈ c :: t, x ∈ X) ∧
        h = List.foldl extend c t := by
  intro h hh
  obtain ⟨blk, hblk, hhblk⟩ := List.mem_flatten.mp hh
  obtain ⟨s, hs, rfl⟩ := List.mem_map.mp hblk
  obtain ⟨c, t, heq, hmem⟩ := sweep_provenance _ h hhblk
  match t with
  | [] =>
    left
    rw [heq]
    exact (mem_sorted_group (hmem c (List.mem_cons_self _ _))).1
  | t0 :: ts =>
    right
    exact ⟨c, t0 :: ts, by simp, fun x hx => (mem_sorted_group (hmem x hx)).1, heq⟩

/-- C10: no input time range with a usable source is lost: some output of
the merge with the same source contains the candidate's interval. -/
theorem merge_covers_input (X : List Highlight) (c : Highlight) (s : String)
    (hc : c ∈ X) (hs : sourceOf c = some s) :
    ∃ out ∈ merge_overlapping_highlights X,
      sourceOf out = some s ∧
      out.timestamp_start_seconds ≤ c.timestamp_start_seconds ∧
      c.timestamp_end_seconds ≤ out.timestamp_end_seconds := by
  have hkey : s ∈ mergeKeys X := mem_dedupFirst.mpr (List.mem_filterMap.mpr ⟨c, hc, hs⟩)
  have hsort : c ∈ sortByStart (groupFor X s) :=
    (List.perm_insertionSort startLE (groupFor X s)).mem_iff.mpr
      (List.mem_filter.mpr ⟨hc, by simp [hs]⟩)
  cases hg : sortByStart (groupFor X s) with
  | nil => rw [hg] at hsort; cases hsort
  | cons m l =>
    rw [hg] at hsort
    obtain ⟨out, hout, h1, h2⟩ := sweepAux_covers l m c (List.mem_cons.mp hsort)
    have houtblk : out ∈ sweep (sortByStart (groupFor X s)) := by
      rw [hg]; exact hout
    have houtm : out ∈ merge_overlapping_highlights X :=
      List.mem_flatten.mpr ⟨sweep (sortByStart (groupFor X s)),
        List.mem_map.mpr ⟨s, hkey, rfl⟩, houtblk⟩
    exact ⟨out, houtm, block_sourceOf X s out houtblk, h1, h2⟩


/-! ### process_segment theorems -/

/-- C2 counterexample: a first transcode whose probed duration (30s) drifts
18s beyond the expected 12s cut duration triggers no retry: exactly one
start+duration cut is issued, no absolute start..end cut is ever issued,
and the segment is marked failed rather than accepted. -/
theorem process_segment_no_retry_cex :
    (process_segment wDrift hA 0 false).cutCalls = [CutStyle.startDuration] ∧
    CutStyle.startEnd ∉ (process_segment wDrift hA 0 false).cutCalls ∧
    (process_segment wDrift hA 0 false).success = false ∧
    (process_segment wDrift hA 0 false).duration = 0 ∧
    3 < |(30:ℚ) - (hA.timestamp_end_seconds + 2 - hA.timestamp_start_seconds)| :=
  ⟨by with_unfolding_all rfl, of_decide_eq_true (by with_unfolding_all rfl),
   by with_unfolding_all rfl, by with_unfolding_all rfl,
   of_decide_eq_true (by with_unfolding_all rfl)⟩

/-- C2 amended: process_segment never retries.  Every call issues exactly
one start+duration re-encode, and when the probed duration drifts from the
expected cut duration by 1 second or more (the tolerance is 1.0, not 3),
the segment is marked failed (success false, duration 0) with no second
attempt. -/
theorem process_segment_no_retry (w : SegmentWorld) (h : Highlight) (idx : Nat)
    (gs : Bool) :
    (process_segment w h idx gs).cutCalls = [CutStyle.startDuration] ∧
    ∀ a, w.probedDuration = some a →
      1 ≤ |a - (h.timestamp_end_seconds + 2 - h.timestamp_start_seconds)| →
      (process_segment w h idx gs).success = false ∧
      (process_segment w h idx gs).duration = 0 := by
  constructor
  · unfold process_segment
    cases w.probedDuration with
    | none => rfl
    | some a =>
      dsimp only
      split <;> rfl
  · intro a hp hdrift
    unfold process_segment
    rw [hp]
    dsimp only
    rw [if_neg]
    · exact ⟨rfl, rfl⟩
    · rintro ⟨-, -, -, habs⟩
      exact absurd hdrift (not_le.mpr habs)

/-- C2 witness: the drifted world through the amended theorem. -/
theorem process_segment_no_retry_witness :
    (process_segment wDrift hA 1 false).success = false ∧
    (process_segment wDrift hA 1 false).duration = 0 :=
  (process_segment_no_retry wDrift hA 1 false).2 30 rfl
    (of_decide_eq_true (by with_unfolding_all rfl))

/-- C8: a verified segment's probed duration is within 3 seconds of the
padded cut duration end - start + 2 (the code enforces the stronger
1-second bound). -/
theorem process_segment_verified_within_tolerance (w : SegmentWorld)
    (h : Highlight) (idx : Nat) (gs : Bool)
    (hsucc : (process_segment w h idx gs).success = true) :
    |(process_segment w h idx gs).duration -
      (h.timestamp_end_seconds - h.timestamp_start_seconds + 2)| ≤ 3 := by
  unfold process_segment at hsucc ⊢
  cases hp : w.probedDuration with
  | none =>
    rw [hp] at hsucc
    simp at hsucc
  | some a =>
    rw [hp] at hsucc
    dsimp only at hsucc ⊢
    by_cases hcond : w.returncode = 0 ∧ w.fileExists = true ∧ 0 < w.fileSize ∧
        |a - (h.timestamp_end_seconds + 2 - h.timestamp_start_seconds)| < 1
    · rw [if_pos hcond]
      have habs := hcond.2.2.2
      have hring : h.timestamp_end_seconds + 2 - h.timestamp_start_seconds =
          h.timestamp_end_seconds - h.timestamp_start_seconds + 2 := by ring
      rw [hring] at habs
      dsimp only
      linarith [habs]
    · rw [if_neg hcond] at hsucc
      simp at hsucc

/-- C8 witness: a world that verifies with the exact expected duration. -/
theorem process_segment_verified_witness :
    |(process_segment wGood hA 0 false).duration -
      (hA.timestamp_end_seconds - hA.timestamp_start_seconds + 2)| ≤ 3 :=
  process_segment_verified_within_tolerance wGood hA 0 false
    (by with_unfolding_all rfl)

/-! ### concatenate_highlights theorems -/

/-- C1 counterexample: when every extraction fails, concatenate_highlights
does not raise; it still writes an (empty) manifest and invokes the concat
command, reporting failure only through the post-concat success check. -/
theorem concatenate_no_verified_cex :
    concatenate_highlights wAllFail (.list [hA]) =
      some { mergedHighlights := [hA], verified := [], expectedTotal := 0,
             manifest := [], concatInvoked := true, success := false } := by
  with_unfolding_all rfl

/-- C1 amended: concatenate_highlights never raises on an empty verified
set; whenever it reaches the assembly stage it builds the manifest from
exactly the verified segments (an empty manifest when none verified) and
always invokes the concatenation command. -/
theorem concatenate_empty_manifest_still_concats (w : ConcatWorld)
    (data : HighlightsJson) (r : ConcatReport)
    (hr : concatenate_highlights w data = some r) (hv : r.verified = []) :
    r.manifest = [] ∧ r.concatInvoked = true := by
  have key : r.manifest = r.verified ∧ r.concatInvoked = true := by
    unfold concatenate_highlights at hr
    cases hd : parseHighlightsJson data with
    | none =>
      rw [hd] at hr
      exact Option.noConfusion hr
    | some hs =>
      rw [hd] at hr
      dsimp only at hr
      by_cases h1 : hs = []
      · rw [if_pos h1] at hr
        exact Option.noConfusion hr
      · rw [if_neg h1] at hr
        by_cases h2 : merge_overlapping_highlights (List.map fixSource hs) = []
        · rw [if_pos h2] at hr
          exact Option.noConfusion hr
        · rw [if_neg h2] at hr
          rw [← Option.some.inj hr]
          exact ⟨rfl, rfl⟩
  exact ⟨key.1.trans hv, key.2⟩

/-- C1 witness: the amended theorem applied to the all-failures world. -/
theorem concatenate_empty_manifest_witness :
    ({ mergedHighlights := [hA], verified := [], expectedTotal := 0,
       manifest := [], concatInvoked := true,
       success := false } : ConcatReport).manifest = [] ∧
    ({ mergedHighlights := [hA], verified := [], expectedTotal := 0,
       manifest := [], concatInvoked := true,
       success := false } : ConcatReport).concatInvoked = true :=
  concatenate_empty_manifest_still_concats wAllFail (.list [hA]) _
    (by with_unfolding_all rfl) rfl

/-! ### Witnesses for the merge theorems -/

/-- C7 witness: the merged record of hA and hB. -/
theorem merge_no_cross_source_witness :
    ∃ s c t, sourceOf mAB = some s ∧ mAB = List.foldl extend c t ∧
      ∀ x ∈ c :: t, x ∈ [hA, hB] ∧ sourceOf x = some s :=
  merge_no_cross_source [hA, hB] mAB (of_decide_eq_true (by with_unfolding_all rfl))

/-- C9 witness: hC merges with nothing and survives unchanged. -/
theorem merge_outputs_are_copies_witness :
    hC ∈ [hA, hC] ∨ ∃ c t, t ≠ [] ∧ (∀ x ∈ c :: t, x ∈ [hA, hC]) ∧
      hC = List.foldl extend c t :=
  merge_outputs_are_copies [hA, hC] hC (of_decide_eq_true (by with_unfolding_all rfl))

/-- C10 witness: hB's interval is covered by an output of the merge. -/
theorem merge_covers_input_witness :
    ∃ out ∈ merge_overlapping_highlights [hA, hB], sourceOf out = some "a.mp4" ∧
      out.timestamp_start_seconds ≤ hB.timestamp_start_seconds ∧
      hB.timestamp_end_seconds ≤ out.timestamp_end_seconds :=
  merge_covers_input [hA, hB] hB "a.mp4"
    (of_decide_eq_true (by with_unfolding_all rfl)) rfl

end VideoConcatenator

namespace Highlighter

/-! ### Selection lemmas -/

theorem phase1_ceiling (target : ℚ) (l : List SelectedHighlight) :
    ∀ (cur : ℚ) (sel skipped : List SelectedHighlight),
      cur ≤ target * (11/10) →
      (phase1 target l cur sel skipped).2.1 ≤ target * (11/10) := by
  induction l with
  | nil => intro cur sel skipped h; exact h
  | cons h rest ih =>
    intro cur sel skipped hcur
    rw [phase1]
    by_cases h1 : target ≤ cur
    · rw [if_pos h1]; exact hcur
    · rw [if_neg h1]
      by_cases h2 : target * (11/10) < cur + h.duration
      · rw [if_pos h2]; exact ih cur sel _ hcur
      · rw [if_neg h2]; exact ih _ _ _ (not_lt.mp h2)

theorem phase1_sum (target : ℚ) (l : List SelectedHighlight) :
    ∀ (cur : ℚ) (sel skipped : List SelectedHighlight),
      (phase1 target l cur sel skipped).2.1 +
        (((phase1 target l cur sel skipped).2.2).map (fun x => x.duration)).sum =
      cur + (l.map (fun x => x.duration)).sum +
        (skipped.map (fun x => x.duration)).sum := by
  induction l with
  | nil => intro cur sel skipped; simp [phase1]
  | cons h rest ih =>
    intro cur sel skipped
    rw [phase1]
    by_cases h1 : target ≤ cur
    · rw [if_pos h1]
      simp only [List.map_append, List.map_cons, List.sum_append, List.sum_cons]
      ring
    · rw [if_neg h1]
      by_cases h2 : target * (11/10) < cur + h.duration
      · rw [if_pos h2, ih]
        simp only [List.map_append, List.map_cons, List.map_nil, List.sum_append,
          List.sum_cons, List.sum_nil]
        ring
      · rw [if_neg h2, ih]
        simp only [List.map_cons, List.sum_cons]
        ring

theorem phase1_mono (target : ℚ) (l : List SelectedHighlight) :
    ∀ (cur : ℚ) (sel skipped : List SelectedHighlight),
      (∀ x ∈ l, 0 ≤ x.duration) →
      cur ≤ (phase1 target l cur sel skipped).2.1 := by
  induction l with
  | nil => intro cur sel skipped _; exact le_refl _
  | cons h rest ih =>
    intro cur sel skipped hnn
    rw [phase1]
    by_cases h1 : target ≤ cur
    · rw [if_pos h1]
    · rw [if_neg h1]
      by_cases h2 : target * (11/10) < cur + h.duration
      · rw [if_pos h2]
        exact ih cur sel _ (fun x hx => hnn x (List.mem_cons_of_mem _ hx))
      · rw [if_neg h2]
        refine le_trans ?_ (ih (cur + h.duration) _ _
          (fun x hx => hnn x (List.mem_cons_of_mem _ hx)))
        have := hnn h (List.mem_cons_self _ _)
        linarith

theorem phase2_progress (target : ℚ) (l : List SelectedHighlight) :
    ∀ (cur : ℚ) (sel : List SelectedHighlight),
      target ≤ (phase2 target l cur sel).2 ∨
        (phase2 target l cur sel).2 = cur + (l.map (fun x => x.duration)).sum := by
  induction l with
  | nil => intro cur sel; right; simp [phase2]
  | cons h rest ih =>
    intro cur sel
    rw [phase2]
    by_cases h1 : target ≤ cur
    · rw [if_pos h1]; exact Or.inl h1
    · rw [if_neg h1]
      rcases ih (cur + h.duration) (sel ++ [h]) with h2 | h2
      · exact Or.inl h2
      · right
        rw [h2]
        simp only [List.map_cons, List.sum_cons]
        ring

theorem select_total (shuffle : List SelectedHighlight → List SelectedHighlight)
    (pool : List SelectedHighlight) (target : ℚ) :
    (select shuffle pool target).total_duration =
      (if (phase1 target (List.insertionSort durLE pool) 0 [] []).2.1 <
          target * (9/10)
       then (phase2 target
              (shuffle (phase1 target (List.insertionSort durLE pool) 0 [] []).2.2)
              (phase1 target (List.insertionSort durLE pool) 0 [] []).2.1
              (phase1 target (List.insertionSort durLE pool) 0 [] []).1).2
       else (phase1 target (List.insertionSort durLE pool) 0 [] []).2.1) := by
  unfold select
  dsimp only
  by_cases hc : (phase1 target (List.insertionSort durLE pool) 0 [] []).2.1 <
      target * (9/10)
  · rw [if_pos hc, if_pos hc]
  · rw [if_neg hc, if_neg hc]

/-- C4: when the phase-2 under-fill fallback is not triggered (the phase-1
total already reaches target * 0.9), the plan total never exceeds
target * 1.1. -/
theorem select_respects_ceiling
    (shuffle : List SelectedHighlight → List SelectedHighlight)
    (pool : List SelectedHighlight) (target : ℚ)
    (htarget : 0 ≤ target)
    (hnot2 : target * (9/10) ≤
      (phase1 target (List.insertionSort durLE pool) 0 [] []).2.1) :
    (select shuffle pool target).total_duration ≤ target * (11/10) := by
  rw [select_total, if_neg (not_lt.mpr hnot2)]
  exact phase1_ceiling target _ 0 [] [] (by nlinarith)

/-- C3: whenever the pool's combined duration reaches the target (with
consistent positive durations), the plan total reaches at least
target * 0.9. -/
theorem select_progress
    (shuffle : List SelectedHighlight → List SelectedHighlight)
    (pool : List SelectedHighlight) (target : ℚ)
    (hshuffle : ∀ l, (shuffle l).Perm l)
    (hdur : ∀ h ∈ pool, h.duration = h.end_time - h.start_time)
    (hlt : ∀ h ∈ pool, h.start_time < h.end_time)
    (hsum : target ≤ (pool.map (fun x => x.duration)).sum) :
    target * (9/10) ≤ (select shuffle pool target).total_duration := by
  have hdnn : ∀ x ∈ List.insertionSort durLE pool, 0 ≤ x.duration := by
    intro x hx
    have hx2 : x ∈ pool := (List.perm_insertionSort durLE pool).mem_iff.mp hx
    rw [hdur x hx2]
    linarith [hlt x hx2]
  rw [select_total]
  by_cases hc : (phase1 target (List.insertionSort durLE pool) 0 [] []).2.1 <
      target * (9/10)
  · rw [if_pos hc]
    have h0le : (0:ℚ) ≤ (phase1 target (List.insertionSort durLE pool) 0 [] []).2.1 :=
      phase1_mono target _ 0 [] [] hdnn
    have ht : 0 < target := by nlinarith
    rcases phase2_progress target
        (shuffle (phase1 target (List.insertionSort durLE pool) 0 [] []).2.2)
        (phase1 target (List.insertionSort durLE pool) 0 [] []).2.1
        (phase1 target (List.insertionSort durLE pool) 0 [] []).1 with h | h
    · nlinarith
    · rw [h]
      have hperm : ((shuffle (phase1 target (List.insertionSort durLE pool)
            0 [] []).2.2).map (fun x => x.duration)).sum =
          (((phase1 target (List.insertionSort durLE pool) 0 [] []).2.2).map
            (fun x => x.duration)).sum :=
        ((hshuffle _).map _).sum_eq
      rw [hperm]
      have hsum1 := phase1_sum target (List.insertionSort durLE pool) 0 [] []
      have hsort_sum : ((List.insertionSort durLE pool).map
            (fun x => x.duration)).sum = (pool.map (fun x => x.duration)).sum :=
        ((List.perm_insertionSort durLE pool).map _).sum_eq
      simp only [List.map_nil, List.sum_nil, add_zero, zero_add] at hsum1
      nlinarith
  · rw [if_neg hc]
    exact not_lt.mp hc

/-- C5 counterexample: one analyzed clip whose analysis holds zero
highlights gives an empty candidate pool, yet plan_compilation returns an
empty plan instead of raising. -/
theorem plan_compilation_empty_pool_cex :
    plan_compilation id (fun _ => 0) [clipNoHL] 600 =
      .ok { highlights := [], total_duration := 0, target_duration := 600 } := by
  with_unfolding_all rfl

/-- C5 amended: plan_compilation raises the no-candidates error
(ValueError 'No analyzed clips available') exactly when no clip carries an
analysis; analyzed clips with zero stored highlights produce an empty plan,
not an error. -/
theorem plan_compilation_error_iff
    (shuffle : List SelectedHighlight → List SelectedHighlight)
    (timeKey : Clip → ℚ) (clips : List Clip) (target : ℚ) :
    plan_compilation shuffle timeKey clips target =
        .error "No analyzed clips available" ↔
      clips.filter (fun c => c.analysis.isSome) = [] := by
  unfold plan_compilation
  by_cases h : clips.filter (fun c => c.analysis.isSome) = []
  · simp [h]
  · simp [h]

/-- C4 witness at a concrete run: pool of one 10s highlight, target 10s. -/
theorem select_respects_ceiling_witness :
    (select id [sh1] 10).total_duration ≤ 10 * ((11:ℚ)/10) :=
  select_respects_ceiling id [sh1] 10 (by norm_num)
    (of_decide_eq_true (by with_unfolding_all rfl))

/-- C3 witness at a concrete run: pool of one 10s highlight, target 10s. -/
theorem select_progress_witness :
    (10:ℚ) * (9/10) ≤ (select id [sh1] 10).total_duration :=
  select_progress id [sh1] 10 (fun l => List.Perm.refl l)
    (of_decide_eq_true (by with_unfolding_all rfl))
    (of_decide_eq_true (by with_unfolding_all rfl))
    (of_decide_eq_true (by with_unfolding_all rfl))

/-- C5 witness: with no clips at all the error is raised. -/
theorem plan_compilation_error_iff_witness :
    plan_compilation id (fun _ => 0) ([] : List Clip) 600 =
      .error "No analyzed clips available" :=
  (plan_compilation_error_iff id (fun _ => 0) [] 600).mpr rfl

end Highlighter
